import Mathlib

/-!
Verification of the Arabic-Localization-Helper translation core.

The program's string data is modelled as `List Char`; JS dictionaries and
`Map` caches are association lists; JS regex passes are embedded as
explicit scanners with the same leftmost-match semantics.
-/

set_option maxRecDepth 4000

abbrev Str := List Char

/-- JS `\s` for the ASCII range (space, tab, newline, CR, VT, FF). -/
def isWs (c : Char) : Bool :=
  c = ' ' ∨ c = '\t' ∨ c = '\n' ∨ c = '\r' ∨ c = '\x0b' ∨ c = '\x0c'

def isDigitCh (c : Char) : Bool := '0' ≤ c ∧ c ≤ '9'

def isLowerAlpha (c : Char) : Bool := 'a' ≤ c ∧ c ≤ 'z'

def isUpperAlpha (c : Char) : Bool := 'A' ≤ c ∧ c ≤ 'Z'

/-- `[a-zA-Z0-9_]`, the JS word/identifier character class. -/
def isWordCh (c : Char) : Bool :=
  isLowerAlpha c ∨ isUpperAlpha c ∨ isDigitCh c ∨ c = '_'

/-- JS `toLowerCase`, restricted to the ASCII letters the classifier relies on. -/
def lowerStr (s : Str) : Str := s.map Char.toLower

/-- JS `String.trim`: drop the maximal whitespace runs at both ends. -/
def trimStr (s : Str) : Str :=
  ((s.dropWhile isWs).reverse.dropWhile isWs).reverse

/-- The maximal whitespace run at the front (JS regex match of `^\s*`). -/
def wsTake (s : Str) : Str := s.takeWhile isWs

/-- The maximal whitespace run at the end (JS leftmost match of `\s*$`). -/
def wsEnd (s : Str) : Str := (s.reverse.takeWhile isWs).reverse

/-- Does `hay` start with `needle`? -/
def begMatch : Str → Str → Bool
  | [], _ => true
  | _ :: _, [] => false
  | a :: as, b :: bs => a = b && begMatch as bs

/-- Does `needle` occur contiguously anywhere in `hay`? -/
def seqHas (needle : Str) : Str → Bool
  | [] => begMatch needle []
  | c :: rest => begMatch needle (c :: rest) || seqHas needle rest

/-- JS `String.indexOf`: character index of the first occurrence, or `-1`. -/
def jsIndexOf (hay needle : Str) : Int :=
  go hay 0
where
  go : Str → Nat → Int
    | [], k => if begMatch needle [] then (k : Int) else -1
    | c :: rest, k => if begMatch needle (c :: rest) then (k : Int) else go rest (k + 1)

/-- JS `String.lastIndexOf`: index of the last occurrence, or `-1`. -/
def jsLastIndexOf (hay needle : Str) : Int :=
  go hay 0 (-1)
where
  go : Str → Nat → Int → Int
    | [], k, best => if begMatch needle [] then (k : Int) else best
    | c :: rest, k, best =>
      go rest (k + 1) (if begMatch needle (c :: rest) then (k : Int) else best)

/-- JS `String.replace` with a string pattern: replace the first occurrence only
    (an empty pattern matches at position 0). -/
def replaceFirstSeq (hay needle repl : Str) : Str :=
  match hay with
  | [] => if begMatch needle [] then repl else []
  | c :: rest =>
    if begMatch needle (c :: rest) then repl ++ (c :: rest).drop needle.length
    else c :: replaceFirstSeq rest needle repl

/-- JS `split(/\s+/)`: tokens between maximal whitespace runs, with an empty
    leading token when the string starts with whitespace and an empty trailing
    token when it ends with one. -/
def splitWs (s : Str) : List Str := splitWsGo [] s
where
  splitWsGo (cur : Str) : Str → List Str
    | [] => [cur.reverse]
    | c :: rest =>
      if isWs c then cur.reverse :: splitWsSep rest
      else splitWsGo (c :: cur) rest
  splitWsSep : Str → List Str
    | [] => [[]]
    | c :: rest => if isWs c then splitWsSep rest else splitWsGo [c] rest

/-- Join word tokens back with single spaces (`join(' ')`). -/
def joinSp : List Str → Str
  | [] => []
  | [w] => w
  | w :: rest => w ++ ' ' :: joinSp rest

/-- The punctuation set stripped by the JSON/JSX/code-literal word fallback:
    `[.,;:!?()\[\]\x7b\x7d'"]`. -/
def isPunctWide (c : Char) : Bool :=
  c = '.' ∨ c = ',' ∨ c = ';' ∨ c = ':' ∨ c = '!' ∨ c = '?' ∨ c = '(' ∨ c = ')' ∨
  c = '[' ∨ c = ']' ∨ c = '\x7b' ∨ c = '\x7d' ∨ c = '\x27' ∨ c = '"'

/-- The smaller punctuation set stripped by the HTML word fallback: `[.,;:!?()]`. -/
def isPunctHtml (c : Char) : Bool :=
  c = '.' ∨ c = ',' ∨ c = ';' ∨ c = ':' ∨ c = '!' ∨ c = '?' ∨ c = '(' ∨ c = ')'

def stripWide (w : Str) : Str := w.filter (fun c => ¬ isPunctWide c)

def stripHtml (w : Str) : Str := w.filter (fun c => ¬ isPunctHtml c)

/-! ### Dictionaries and the shared cache -/

/-- A JS object used as a dictionary, or a JS `Map`, as an association list
    (later `set`s are consed at the front, shadowing earlier entries). -/
abbrev Table := List (Str × Str)

def tblGet : Table → Str → Option Str
  | [], _ => none
  | (k, v) :: rest, q => if k = q then some v else tblGet rest q

/-- JS truthiness of `dict[key]`: present and not the empty string. -/
def dGet (d : Table) (k : Str) : Option Str :=
  match tblGet d k with
  | some v => if v = [] then none else some v
  | none => none

/-- JS `Map.has` (presence, regardless of truthiness of the value). -/
def cHas (c : Table) (k : Str) : Bool := (tblGet c k).isSome

/-- JS `Map.get` after a successful `has`. -/
def cGet (c : Table) (k : Str) : Str := (tblGet c k).getD []

/-- JS `Map.set`. -/
def cSet (c : Table) (k v : Str) : Table := (k, v) :: c

/-! ### SafetyClassifier (`isSafeToTranslate` in utils/safeReplace) -/

/-- `/^https?:\/\//i`, `/^www\./i` or `/^[a-z]+:\/\//i`. -/
def urlLike (s : Str) : Bool :=
  let ls := lowerStr s
  begMatch ('h' :: 't' :: 't' :: 'p' :: ':' :: '/' :: '/' :: []) ls ||
  begMatch ('h' :: 't' :: 't' :: 'p' :: 's' :: ':' :: '/' :: '/' :: []) ls ||
  begMatch ('w' :: 'w' :: 'w' :: '.' :: []) ls ||
  (ls.takeWhile isLowerAlpha ≠ [] &&
    begMatch (':' :: '/' :: '/' :: []) (ls.dropWhile isLowerAlpha))

/-- The literal code-pattern substrings: `$\x7b`, `function(`, `=>`, `()`, `\x7b\x7d`. -/
def codePattern (s : Str) : Bool :=
  seqHas ('$' :: '\x7b' :: []) s ||
  seqHas ('f' :: 'u' :: 'n' :: 'c' :: 't' :: 'i' :: 'o' :: 'n' :: '(' :: []) s ||
  seqHas ('=' :: '>' :: []) s ||
  seqHas ('(' :: ')' :: []) s ||
  seqHas ('\x7b' :: '\x7d' :: []) s

/-- `/^[\d\s\-_.,;:!?()]+$/`. -/
def numericPunct (s : Str) : Bool :=
  s ≠ [] && s.all (fun c =>
    isDigitCh c ∨ isWs c ∨ c = '-' ∨ c = '_' ∨ c = '.' ∨ c = ',' ∨ c = ';' ∨
    c = ':' ∨ c = '!' ∨ c = '?' ∨ c = '(' ∨ c = ')')

/-- `/^[a-z][a-zA-Z0-9_]*$/`. -/
def lowerIdShape : Str → Bool
  | [] => false
  | c :: rest => isLowerAlpha c && rest.all isWordCh

/-- `/^[A-Z][a-zA-Z0-9_]*$/`. -/
def upperIdShape : Str → Bool
  | [] => false
  | c :: rest => isUpperAlpha c && rest.all isWordCh

/-- `isSafeToTranslate(text, dict?)` from `utils/safeReplace`: the layered
    heuristic deciding whether a candidate string may be translated. -/
def isSafeToTranslate (s : Str) (dict : Option Table) : Bool :=
  if s = [] ∨ trimStr s = [] then false
  else if urlLike s then false
  else if codePattern s then false
  else if numericPunct s then false
  else if (match dict with | some d => (dGet d s).isSome | none => false) then true
  else if (match dict with | some d => (dGet d (lowerStr s)).isSome | none => false) then true
  else if lowerIdShape s then false
  else if upperIdShape s then
    if s.any isDigitCh || s.contains '_' then false else true
  else true

/-- `isWhitespaceOnly` from `utils/safeReplace`: `/^\s*$/`. -/
def isWhitespaceOnly (s : Str) : Bool := s.all isWs

/-! ### DictionaryResolver instances

Each format translator embeds its own copy of the layered lookup.  The four
copies below are transcribed separately from their four source sites. -/

/-- Word fallback of the JSON tree walk (`translateJson.ts`, word mapper):
    exact, lowercase, punctuation-stripped, punctuation-stripped lowercase. -/
def jsonWordMap (d : Table) (w : Str) : Str :=
  match dGet d w with
  | some v => v
  | none =>
    match dGet d (lowerStr w) with
    | some v => v
    | none =>
      let cw := stripWide w
      match (if cw ≠ [] ∧ cw ≠ w then dGet d cw else none) with
      | some v => replaceFirstSeq w cw v
      | none =>
        match (if cw ≠ [] ∧ cw ≠ w then dGet d (lowerStr cw) else none) with
        | some v => replaceFirstSeq w cw v
        | none => w

/-- String resolution of the JSON tree walk (`translateJson.ts`, string branch):
    cache hit, dictionary exact hit, dictionary lowercase hit, word fallback;
    the result is cached when a whole-string hit occurred or the fallback
    changed the text. -/
def jsonResolveStr (s : Str) (d : Table) (c : Table) : Str × Table :=
  if cHas c s then (cGet c s, c)
  else
    match (match dGet d s with | some v => some v | none => dGet d (lowerStr s)) with
    | some v => (v, cSet c s v)
    | none =>
      let t := joinSp ((splitWs s).map (jsonWordMap d))
      if t ≠ s then (t, cSet c s t) else (t, c)

/-- Word fallback of the JSX text pass in `translateStrings.ts` (exact,
    lowercase, stripped, stripped lowercase). -/
def jsxWordMap (d : Table) (w : Str) : Str :=
  match dGet d w with
  | some v => v
  | none =>
    match dGet d (lowerStr w) with
    | some v => v
    | none =>
      let cw := stripWide w
      match (if cw ≠ [] ∧ cw ≠ w then dGet d cw else none) with
      | some v => replaceFirstSeq w cw v
      | none =>
        match (if cw ≠ [] ∧ cw ≠ w then dGet d (lowerStr cw) else none) with
        | some v => replaceFirstSeq w cw v
        | none => w

/-- String resolution of the JSX text pass in `translateStrings.ts`
    (cache, exact, lowercase, word fallback, conditional caching). -/
def jsxResolveStr (s : Str) (d : Table) (c : Table) : Str × Table :=
  if cHas c s then (cGet c s, c)
  else
    match (match dGet d s with | some v => some v | none => dGet d (lowerStr s)) with
    | some v => (v, cSet c s v)
    | none =>
      let t := joinSp ((splitWs s).map (jsxWordMap d))
      if t ≠ s then (t, cSet c s t) else (t, c)

/-- Word fallback of the Stage-A string-literal resolver in
    `translateStrings.ts`: exact hit, then punctuation-stripped hit.
    No lowercase lookup of any kind. -/
def stageAWordMap (d : Table) (w : Str) : Str :=
  match dGet d w with
  | some v => v
  | none =>
    let cw := stripWide w
    match (if cw ≠ [] ∧ cw ≠ w then dGet d cw else none) with
    | some v => replaceFirstSeq w cw v
    | none => w

/-- Stage-A string-literal resolution in `translateStrings.ts`: cache hit,
    dictionary exact hit (no lowercase attempt), word fallback. -/
def stageAResolve (s : Str) (d : Table) (c : Table) : Str × Table :=
  if cHas c s then (cGet c s, c)
  else
    match dGet d s with
    | some v => (v, cSet c s v)
    | none =>
      let t := joinSp ((splitWs s).map (stageAWordMap d))
      if t ≠ s then (t, cSet c s t) else (t, c)

/-- Word fallback of the HTML translator's `translateText`: only the
    punctuation-stripped form (small punctuation set) is looked up. -/
def htmlWordMap (d : Table) (w : Str) : Str :=
  let cw := stripHtml w
  match dGet d cw with
  | some v => replaceFirstSeq w cw v
  | none => w

/-- `translateText` from `translateHtml` (dist build): whitespace guard,
    cache hit, safety check invoked WITHOUT the dictionary, dictionary exact
    hit, word fallback (fallback results are not cached). -/
def translateTextFn (t : Str) (d : Table) (c : Table) : Str × Table :=
  if t = [] ∨ isWhitespaceOnly t then (t, c)
  else if cHas c t then (cGet c t, c)
  else if ¬ isSafeToTranslate t none then (t, c)
  else
    match dGet d t with
    | some v => (v, cSet c t v)
    | none => (joinSp ((splitWs t).map (htmlWordMap d)), c)

/-! ### JsonTreeTranslator (`translateObject` in translateJson.ts)

JSON values as a mutual inductive family; `JSON.parse`/`JSON.stringify` at the
boundary of `translateJson` are external to the walk and not modelled. -/

mutual
inductive JValue : Type where
  | str (s : Str)
  | num (n : Int)
  | boolean (b : Bool)
  | null
  | arr (xs : JArr)
  | obj (es : JObj)
  deriving DecidableEq

inductive JArr : Type where
  | nil
  | cons (hd : JValue) (tl : JArr)
  deriving DecidableEq

inductive JObj : Type where
  | nil
  | cons (k : Str) (v : JValue) (tl : JObj)
  deriving DecidableEq
end

mutual
/-- `translateObject(obj, dict, cache)`: strings are resolved, arrays map over
    elements, objects map over property values preserving keys and order,
    other primitives are returned as-is.  The shared cache threads through in
    evaluation order. -/
def translateObject : JValue → Table → Table → JValue × Table
  | .str s, d, c => let r := jsonResolveStr s d c; (.str r.1, r.2)
  | .num n, _, c => (.num n, c)
  | .boolean b, _, c => (.boolean b, c)
  | .null, _, c => (.null, c)
  | .arr xs, d, c => let r := translateArr xs d c; (.arr r.1, r.2)
  | .obj es, d, c => let r := translateEntries es d c; (.obj r.1, r.2)

def translateArr : JArr → Table → Table → JArr × Table
  | .nil, _, c => (.nil, c)
  | .cons hd tl, d, c =>
    let r := translateObject hd d c
    let rest := translateArr tl d r.2
    (.cons r.1 rest.1, rest.2)

def translateEntries : JObj → Table → Table → JObj × Table
  | .nil, _, c => (.nil, c)
  | .cons k v tl, d, c =>
    let r := translateObject v d c
    let rest := translateEntries tl d r.2
    (.cons k r.1 rest.1, rest.2)
end

mutual
/-- The structural shape of a JSON value: string leaves erased, everything
    else (keys, order, lengths, primitive values) kept. -/
inductive JShape : Type where
  | str
  | num (n : Int)
  | boolean (b : Bool)
  | null
  | arr (xs : SArr)
  | obj (es : SObj)
  deriving DecidableEq

inductive SArr : Type where
  | nil
  | cons (hd : JShape) (tl : SArr)
  deriving DecidableEq

inductive SObj : Type where
  | nil
  | cons (k : Str) (v : JShape) (tl : SObj)
  deriving DecidableEq
end

mutual
def jshape : JValue → JShape
  | .str _ => .str
  | .num n => .num n
  | .boolean b => .boolean b
  | .null => .null
  | .arr xs => .arr (jshapeArr xs)
  | .obj es => .obj (jshapeObj es)

def jshapeArr : JArr → SArr
  | .nil => .nil
  | .cons hd tl => .cons (jshape hd) (jshapeArr tl)

def jshapeObj : JObj → SObj
  | .nil => .nil
  | .cons k v tl => .cons k (jshape v) (jshapeObj tl)
end

/-! ### CodeLiteralTranslator (`translateStrings.ts`)

`acorn.parse` is an external collaborator; its outcome is passed in as an
`Option`: `none` models a parse failure, `some nodes` models a successful
parse, reduced to the string-valued `Literal` nodes in `walk.simple` visit
order (with `ranges: true` every node carries its byte range, quotes
included). -/

structure LitNode : Type where
  start : Nat
  stop : Nat
  value : Str
  deriving DecidableEq

structure Repl : Type where
  start : Nat
  stop : Nat
  replacement : Str
  deriving DecidableEq

/-- The Stage-A walk body: skip empty / whitespace-only and unsafe literal
    values, resolve the rest, and record a replacement when the resolution
    changed the text.  The cache threads through in visit order. -/
def collectRepls (d : Table) : List LitNode → Table → List Repl × Table
  | [], c => ([], c)
  | n :: ns, c =>
    if n.value = [] ∨ trimStr n.value = [] then collectRepls d ns c
    else if ¬ isSafeToTranslate n.value (some d) then collectRepls d ns c
    else
      let r := stageAResolve n.value d c
      let rest := collectRepls d ns r.2
      if r.1 ≠ n.value then
        ({ start := n.start, stop := n.stop, replacement := r.1 } :: rest.1, rest.2)
      else rest

/-- `replacements.sort((a, b) => b.start - a.start)`: descending by start. -/
def insertDesc (r : Repl) : List Repl → List Repl
  | [] => [r]
  | x :: xs => if r.start ≥ x.start then r :: x :: xs else x :: insertDesc r xs

def sortDesc : List Repl → List Repl
  | [] => []
  | r :: rs => insertDesc r (sortDesc rs)

/-- `.replace(/"/g, '\\"')` and the analogous single-quote / backtick passes:
    a backslash is inserted before every occurrence of `q`. -/
def escChar (q : Char) : Str → Str
  | [] => []
  | c :: rest => if c = q then '\\' :: c :: escChar q rest else c :: escChar q rest

/-- `.replace(/\$\x7b/g, '\\$\x7b')`: a backslash before every `$\x7b`. -/
def escDollar : Str → Str
  | [] => []
  | [c] => [c]
  | c1 :: c2 :: rest =>
    if c1 = '$' ∧ c2 = '\x7b' then '\\' :: '$' :: '\x7b' :: escDollar rest
    else c1 :: escDollar (c2 :: rest)

/-- The escaping applied to a replacement text for a given quote class. -/
def escFor (q : Option Char) (s : Str) : Str :=
  match q with
  | some '"' => escChar '"' s
  | some '\x27' => escChar '\x27' s
  | some '\x60' => escDollar (escChar '\x60' s)
  | _ => s

/-- The quote character class of the original literal (its first character). -/
def quoteOf (original : Str) : Option Char :=
  if begMatch ('"' :: []) original then some '"'
  else if begMatch ('\x27' :: []) original then some '\x27'
  else if begMatch ('\x60' :: []) original then some '\x60'
  else none

/-- One iteration of the replacement-application loop in `translateStrings`:
    splice `quote ++ escaped ++ quote` over `[start, stop)` of the current
    result, reading the quote class from the ORIGINAL content. -/
def applyReplacement (content result : Str) (r : Repl) : Str :=
  let before := result.take r.start
  let after := result.drop r.stop
  let original := (content.drop r.start).take (r.stop - r.start)
  let qt := quoteOf original
  let escaped := escFor qt r.replacement
  let quoteStr : Str := match qt with | some q => [q] | none => []
  before ++ quoteStr ++ escaped ++ quoteStr ++ after

def applyAll (content : Str) : List Repl → Str → Str
  | [], res => res
  | r :: rs, res => applyAll content rs (applyReplacement content res r)

/-- Callback of the JSX regex pass (`result.replace(/>([^<\x7b]+)</g, ...)`),
    for the match `'>' ++ span ++ '<'` at offset `k` of `orig`. -/
def jsxSpanStep (d : Table) (orig : Str) (k : Nat) (span : Str) (c : Table) :
    Str × Table :=
  let m := '>' :: span ++ ['<']
  let beforeMatch := orig.take k
  if jsLastIndexOf beforeMatch ('<' :: 's' :: 'c' :: 'r' :: 'i' :: 'p' :: 't' :: []) >
       jsLastIndexOf beforeMatch ('<' :: '/' :: 's' :: 'c' :: 'r' :: 'i' :: 'p' :: 't' :: '>' :: []) ∨
     jsLastIndexOf beforeMatch ('<' :: 's' :: 't' :: 'y' :: 'l' :: 'e' :: []) >
       jsLastIndexOf beforeMatch ('<' :: '/' :: 's' :: 't' :: 'y' :: 'l' :: 'e' :: '>' :: []) then
    (m, c)
  else
    let trimmed := trimStr span
    if trimmed = [] ∨ ¬ isSafeToTranslate trimmed (some d) then (m, c)
    else
      let r := jsxResolveStr trimmed d c
      ('>' :: (wsTake span ++ r.1 ++ wsEnd span ++ ['<']), r.2)

/-- The JSX text pass: global scan for `>([^<\x7b]+)<`, fuelled by the input
    length (each step consumes at least one character). -/
def jsxTextGo (d : Table) (orig : Str) :
    Nat → Str → Nat → Table → Str × Table
  | 0, rest, _, c => (rest, c)
  | _ + 1, [], _, c => ([], c)
  | fuel + 1, ch :: rest, k, c =>
    if ch = '>' then
      let span := rest.takeWhile (fun x => ¬ (x = '<' ∨ x = '\x7b'))
      match rest.drop span.length with
      | '<' :: tail2 =>
        if span = [] then
          let r := jsxTextGo d orig fuel rest (k + 1) c
          ('>' :: r.1, r.2)
        else
          let e := jsxSpanStep d orig k span c
          let r := jsxTextGo d orig fuel tail2 (k + 1 + span.length + 1) e.2
          (e.1 ++ r.1, r.2)
      | _ =>
        let r := jsxTextGo d orig fuel rest (k + 1) c
        ('>' :: r.1, r.2)
    else
      let r := jsxTextGo d orig fuel rest (k + 1) c
      (ch :: r.1, r.2)

def jsxTextPass (d : Table) (s : Str) (c : Table) : Str × Table :=
  jsxTextGo d s (s.length + 1) s 0 c

/-- `translateStrings(content, cache, dict)` with the parse outcome made
    explicit.  On parse failure (`none`) the original content is returned
    verbatim and the pipeline stops; otherwise Stage A rewrites the literal
    nodes (descending by offset) and Stage B runs the JSX text pass over the
    rewritten buffer. -/
def translateStrings (content : Str) (parsed : Option (List LitNode))
    (c : Table) (d : Table) : Str × Table :=
  match parsed with
  | none => (content, c)
  | some nodes =>
    let col := collectRepls d nodes c
    let result := applyAll content (sortDesc col.1) content
    jsxTextPass d result col.2

/-! ### HtmlTranslator (`translateHtml`, dist build)

The dist build is the current generation of the HTML translator (its caller
`translator.ts` passes `(content, cache, dict)`, matching the dist signature;
the older checked-in TS source lacks the root-attribute injection but is
otherwise identical). -/

/-- Case-insensitive literal match (the `i` regex flag over ASCII):
    on success returns the remaining suffix. -/
def matchCI : Str → Str → Option Str
  | [], s => some s
  | _ :: _, [] => none
  | p :: ps, c :: cs => if p.toLower = c.toLower then matchCI ps cs else none

def isQuoteCh (c : Char) : Bool := c = '"' ∨ c = '\x27'

/-- Continuation of the attribute pattern after `nm\s*=`: match
    `\s*["']([^"']*)["']`. -/
def attrAfterEq (r3 : Str) : Option (Str × Str) :=
  match r3.dropWhile isWs with
  | q :: r5 =>
    if isQuoteCh q then
      let v := r5.takeWhile (fun c => ¬ isQuoteCh c)
      match r5.drop v.length with
      | q2 :: r6 => if isQuoteCh q2 then some (v, r6) else none
      | [] => none
    else none
  | [] => none

/-- Continuation of the attribute pattern after the name: match `\s*=` then
    the quoted value. -/
def attrAfterName (r1 : Str) : Option (Str × Str) :=
  match r1.dropWhile isWs with
  | '=' :: r3 => attrAfterEq r3
  | _ => none

/-- Try the pattern `nm\s*=\s*["']([^"']*)["']` at the head of `s`
    (attribute name matched case-insensitively).  Returns the captured value
    and the suffix after the closing quote. -/
def tryAttrAt (nm : Str) (s : Str) : Option (Str × Str) :=
  match matchCI nm s with
  | none => none
  | some r1 => attrAfterName r1

/-- Leftmost match of `nm\s*=\s*["']([^"']*)["']`: returns the text before
    the match, the captured value, and the text after the match. -/
def attrFind (nm : Str) : Str → Option (Str × Str × Str)
  | [] => none
  | ch :: rest =>
    match tryAttrAt nm (ch :: rest) with
    | some (v, after) => some ([], v, after)
    | none =>
      match attrFind nm rest with
      | some (pre, v, after) => some (ch :: pre, v, after)
      | none => none

def dirLit : Str := 'd' :: 'i' :: 'r' :: '=' :: '"' :: 'r' :: 't' :: 'l' :: '"' :: []

def langLit : Str := 'l' :: 'a' :: 'n' :: 'g' :: '=' :: '"' :: 'a' :: 'r' :: '"' :: []

/-- Update-or-append of the `dir` attribute: replace the first
    `dir\s*=\s*["'][^"']*["']` match with `dir="rtl"`, else append it
    after the trimmed attributes. -/
def dirStep (attrs : Str) : Str :=
  match attrFind ('d' :: 'i' :: 'r' :: []) attrs with
  | some (pre, _, after) => pre ++ dirLit ++ after
  | none => (if trimStr attrs = [] then [] else trimStr attrs ++ [' ']) ++ dirLit

/-- Update-or-append of the `lang` attribute, run on the `dir`-updated
    attribute text. -/
def langStep (u1 : Str) : Str :=
  match attrFind ('l' :: 'a' :: 'n' :: 'g' :: []) u1 with
  | some (pre, _, after) => pre ++ langLit ++ after
  | none => (if trimStr u1 = [] then [] else trimStr u1 ++ [' ']) ++ langLit

/-- The `<html ...>` replacer callback: update-or-append `dir="rtl"`, then
    update-or-append `lang="ar"`, then re-emit the tag. -/
def setAttrRtl (attrs : Str) : Str :=
  ('<' :: 'h' :: 't' :: 'm' :: 'l' :: ' ' :: []) ++ trimStr (langStep (dirStep attrs)) ++ ['>']

/-- Try `<html\s*([^>]*)>` (case-insensitive) at the head of `s`:
    returns the attribute capture and the suffix after `>`. -/
def tryHtmlOpenAt (s : Str) : Option (Str × Str) :=
  match matchCI ('<' :: 'h' :: 't' :: 'm' :: 'l' :: []) s with
  | none => none
  | some r =>
    let r2 := r.dropWhile isWs
    let attrs := r2.takeWhile (fun c => c ≠ '>')
    match r2.drop attrs.length with
    | '>' :: tl => some (attrs, tl)
    | _ => none

/-- Pass 1 of `translateHtml`: rewrite the first `<html\s*([^>]*)>` match
    through `setAttrRtl`; without a match the content is unchanged. -/
def injectHtmlAttrs : Str → Str
  | [] => []
  | ch :: rest =>
    match tryHtmlOpenAt (ch :: rest) with
    | some (attrs, after) => setAttrRtl attrs ++ after
    | none => ch :: injectHtmlAttrs rest

/-- Emission of a non-skipped text-node span: original leading/trailing
    whitespace runs around the translation of the trimmed core. -/
def htmlSpanEmit (t : Str) (d : Table) (c : Table) : Str × Table :=
  let r := translateTextFn (trimStr t) d c
  ('>' :: (wsTake t ++ r.1 ++ wsEnd t ++ ['<']), r.2)

/-- Callback of the HTML text-node pass for match `'>' ++ span ++ '<'`:
    the script/style check locates the match text via `indexOf` over the
    WHOLE pre-pass string (the dist code uses `result.indexOf(match)`,
    not the match offset). -/
def htmlSpanStep (d : Table) (orig : Str) (span : Str) (c : Table) :
    Str × Table :=
  let m := '>' :: span ++ ['<']
  let beforeMatch := orig.take (jsIndexOf orig m).toNat
  if jsLastIndexOf beforeMatch ('<' :: 's' :: 'c' :: 'r' :: 'i' :: 'p' :: 't' :: []) >
       jsLastIndexOf beforeMatch ('<' :: '/' :: 's' :: 'c' :: 'r' :: 'i' :: 'p' :: 't' :: '>' :: []) ∨
     jsLastIndexOf beforeMatch ('<' :: 's' :: 't' :: 'y' :: 'l' :: 'e' :: []) >
       jsLastIndexOf beforeMatch ('<' :: '/' :: 's' :: 't' :: 'y' :: 'l' :: 'e' :: '>' :: []) then
    (m, c)
  else htmlSpanEmit span d c

/-- Pass 2 of `translateHtml`: global scan for `>([^<]+)<`, fuelled by the
    input length (each step consumes at least one character). -/
def htmlTextGo (d : Table) (orig : Str) :
    Nat → Str → Table → Str × Table
  | 0, rest, c => (rest, c)
  | _ + 1, [], c => ([], c)
  | fuel + 1, ch :: rest, c =>
    if ch = '>' then
      let span := rest.takeWhile (fun x => x ≠ '<')
      match rest.drop span.length with
      | '<' :: tail2 =>
        if span = [] then
          let r := htmlTextGo d orig fuel rest c
          ('>' :: r.1, r.2)
        else
          let e := htmlSpanStep d orig span c
          let r := htmlTextGo d orig fuel tail2 e.2
          (e.1 ++ r.1, r.2)
      | _ =>
        let r := htmlTextGo d orig fuel rest c
        ('>' :: r.1, r.2)
    else
      let r := htmlTextGo d orig fuel rest c
      (ch :: r.1, r.2)

def htmlTextPass (d : Table) (s : Str) (c : Table) : Str × Table :=
  htmlTextGo d s (s.length + 1) s c

/-- One attribute pass (`alt` / `title` / `placeholder` / `aria-label`):
    global replace of `nm\s*=\s*["']([^"']*)["']` by `nm="translated"`,
    re-quoting with double quotes and the lowercase attribute name. -/
def attrPassGo (nm : Str) (d : Table) :
    Nat → Str → Table → Str × Table
  | 0, s, c => (s, c)
  | fuel + 1, s, c =>
    match attrFind nm s with
    | none => (s, c)
    | some (pre, v, after) =>
      let r := translateTextFn v d c
      let rest := attrPassGo nm d fuel after r.2
      (pre ++ nm ++ '=' :: '"' :: (r.1 ++ '"' :: rest.1), rest.2)

def attrPass (nm : Str) (d : Table) (s : Str) (c : Table) : Str × Table :=
  attrPassGo nm d (s.length + 1) s c

/-- `translateHtml(content, cache, dict)` (dist build): root-attribute
    injection, the text-node pass, then the four attribute passes, threading
    the shared cache throughout. -/
def translateHtml (content : Str) (c : Table) (d : Table) : Str × Table :=
  let r0 := injectHtmlAttrs content
  let r1 := htmlTextPass d r0 c
  let r2 := attrPass ('a' :: 'l' :: 't' :: []) d r1.1 r1.2
  let r3 := attrPass ('t' :: 'i' :: 't' :: 'l' :: 'e' :: []) d r2.1 r2.2
  let r4 := attrPass ('p' :: 'l' :: 'a' :: 'c' :: 'e' :: 'h' :: 'o' :: 'l' :: 'd' :: 'e' :: 'r' :: []) d r3.1 r3.2
  let r5 := attrPass ('a' :: 'r' :: 'i' :: 'a' :: '-' :: 'l' :: 'a' :: 'b' :: 'e' :: 'l' :: []) d r4.1 r4.2
  r5

/-! ### Property checkers and concrete inputs used by the theorems -/

/-- No `"` or `'` anywhere (used to delimit well-behaved attribute sections). -/
def noQuotes (s : Str) : Bool := s.all (fun c => ¬ isQuoteCh c)

/-- Scan helper: every occurrence of `q` (here at the head position, with
    `prev` the character just before it) is preceded by a backslash. -/
def pairCheckQ (q : Char) : Char → Str → Bool
  | _, [] => true
  | prev, c :: rest => (decide (c ≠ q) || decide (prev = '\\')) && pairCheckQ q c rest

/-- Every occurrence of `q` in the string is immediately preceded by `\`. -/
def noBareQ (q : Char) : Str → Bool
  | [] => true
  | c :: rest => decide (c ≠ q) && pairCheckQ q c rest

/-- Scan helper for `$\x7b` occurrences with predecessor `prev`. -/
def dbCheck : Char → Str → Bool
  | _, [] => true
  | prev, c :: rest =>
    (decide (¬ (c = '$' ∧ begMatch ('\x7b' :: []) rest)) || decide (prev = '\\')) &&
      dbCheck c rest

/-- Every occurrence of the two-character sequence `$\x7b` is immediately
    preceded by `\`. -/
def noBareDB : Str → Bool
  | [] => true
  | c :: rest => decide (¬ (c = '$' ∧ begMatch ('\x7b' :: []) rest)) && dbCheck c rest

/-- Concrete inputs referenced by the claim theorems. -/
def welStr : Str := "Welcome".data

def welLowerDict : Table := [("welcome".data, "X".data)]

def xStr : Str := "X".data

def uNameStr : Str := "userName".data

def dUser : Table := [(uNameStr, xStr)]

def codeStr : Str := "hello()".data

def dCode : Table := [(codeStr, xStr)]

def spStr : Str := [' ']

def zStr : Str := "Z".data

def hiStr : Str := "Hi".data

def dWelcomeAr : Table := [("Welcome".data, "مرحبا".data)]

def c4ScenIn : Str := "<html><body><h1>Welcome</h1></body></html>".data

def c4ScenOut : Str := "<html dir=\"rtl\" lang=\"ar\"><body><h1>مرحبا</h1></body></html>".data

def c4CexIn : Str :=
  '<' :: 'h' :: 't' :: 'm' :: 'l' :: ' ' :: 'l' :: 'a' :: 'n' :: 'g' :: '=' :: '\x27' :: '>' :: []

def c4CexOut : Str := "<html lang=\"ar\"rtl\">".data

def clsAttr : Str := "class=x".data

def c7In : Str := "<a> </a>".data

def c7Out : Str := "<a>  </a>".data

def c7PosIn : Str := "<p>  Hello  </p>".data

def c7PosOut : Str := "<p>  X  </p>".data

def dHello : Table := [("Hello".data, xStr)]

def wsHello : Str := "  Hello  ".data

def c8In : Str := "<b>Hi</b><script>Hi</script>".data

def c8Dict : Table := [(hiStr, xStr)]

def c8Out : Str := "<b>X</b><script>X</script>".data

def c10HtmlIn : Str := "<p>userName</p>".data

def c10HtmlOut : Str := "<p>X</p>".data

def c10Cache : Table := [(uNameStr, xStr)]

def c5Content : Str := '\x27' :: 'H' :: 'i' :: '\x27' :: []

def c5Repl : Repl := { start := 0, stop := 4, replacement := 'd' :: 'o' :: 'n' :: '\x27' :: 't' :: [] }

/-! ## Theorems -/

/-! ### C3: structural shape preservation of the JSON walk -/

mutual
theorem shapeValPreserved (v : JValue) (d c : Table) :
    jshape (translateObject v d c).1 = jshape v := by
  cases v with
  | str s => rfl
  | num n => rfl
  | boolean b => rfl
  | null => rfl
  | arr xs => simpa [translateObject, jshape] using shapeArrPreserved xs d c
  | obj es => simpa [translateObject, jshape] using shapeObjPreserved es d c

theorem shapeArrPreserved (xs : JArr) (d c : Table) :
    jshapeArr (translateArr xs d c).1 = jshapeArr xs := by
  cases xs with
  | nil => rfl
  | cons hd tl =>
    simp only [translateArr, jshapeArr]
    rw [shapeValPreserved hd d c, shapeArrPreserved tl d (translateObject hd d c).2]

theorem shapeObjPreserved (es : JObj) (d c : Table) :
    jshapeObj (translateEntries es d c).1 = jshapeObj es := by
  cases es with
  | nil => rfl
  | cons k v tl =>
    simp only [translateEntries, jshapeObj]
    rw [shapeValPreserved v d c, shapeObjPreserved tl d (translateObject v d c).2]
end

/-- C3: for every JSON value tree, dictionary and cache, the translated tree
    has exactly the same structural shape as the input — same keys in the same
    order at every object, same length and order at every array, same nesting,
    and the same value at every number / boolean / null position; only string
    leaves can differ (the shape erases exactly the string contents). -/
theorem C3_json_shape_preserved :
    ∀ (v : JValue) (d c : Table), jshape (translateObject v d c).1 = jshape v :=
  shapeValPreserved

/-! ### C1: the resolver layers of the format translators -/

/-- C1 (amended): the JSON tree walk's string resolver and the JSX text pass's
    resolver implement the same layered algorithm (cache hit, dictionary exact
    hit, dictionary lowercase hit, word fallback with exact / lowercase /
    stripped / stripped-lowercase layers) and are extensionally equal on every
    (text, dictionary, cache) input.  The Stage-A string-literal resolver and
    the HTML resolver do not share this algorithm (see the counterexample). -/
theorem C1_json_jsx_resolvers_equal :
    ∀ (s : Str) (d c : Table), jsonResolveStr s d c = jsxResolveStr s d c :=
  fun _ _ _ => rfl

/-- C1 counterexample: on text `Welcome` with dictionary entry `welcome` the
    JSON/JSX resolver returns the lowercase hit while the Stage-A resolver,
    which has no lowercase layer, keeps the text — so the three format
    translators' resolvers are not all extensionally equal as claimed. -/
theorem C1_counterexample :
    (stageAResolve welStr welLowerDict []).1 ≠ (jsonResolveStr welStr welLowerDict []).1 := by
  decide

/-! ### C2: dictionary hits versus the safety classification -/

/-- C2 (amended): when the classifier is invoked WITH the dictionary (the
    code-literal and JSX paths), any candidate whose exact or lowercase text
    is a truthy dictionary key and which is not rejected by the earlier
    empty / URL / code-pattern / numeric filters is classified safe — the
    identifier-shape heuristics never block it.  The HTML path, however,
    invokes the classifier WITHOUT the dictionary, where a dictionary-listed
    identifier-shaped candidate such as `userName` is classified unsafe. -/
theorem C2_dict_hit_classified_safe :
    (∀ (s : Str) (d : Table),
        ((dGet d s).isSome ∨ (dGet d (lowerStr s)).isSome) →
        ¬ (s = [] ∨ trimStr s = []) →
        urlLike s = false → codePattern s = false → numericPunct s = false →
        isSafeToTranslate s (some d) = true)
    ∧ isSafeToTranslate uNameStr none = false := by
  constructor
  · intro s d hd h1 h2 h3 h4
    unfold isSafeToTranslate
    rw [if_neg h1]
    simp only [h2, h3, h4, Bool.false_eq_true, if_false]
    rcases hexact : (dGet d s).isSome with _ | _
    · rcases hd with h | h
      · rw [hexact] at h; exact absurd h (by simp)
      · simp [hexact, h]
    · simp [hexact]
  · decide

/-- C2 witness: `userName` with the dictionary entry `userName` passes every
    early filter and is classified safe when the dictionary is supplied. -/
theorem C2_witness : isSafeToTranslate uNameStr (some dUser) = true :=
  C2_dict_hit_classified_safe.1 uNameStr dUser (Or.inl (by decide)) (by decide)
    (by decide) (by decide) (by decide)

/-- C2 counterexample: `userName` is a dictionary key, yet the classification
    used by the HTML translator path (classifier called without the
    dictionary) returns unsafe, and the HTML `translateText` consequently
    leaves the dictionary-listed candidate untranslated. -/
theorem C2_counterexample :
    (dGet dUser uNameStr).isSome = true ∧
    isSafeToTranslate uNameStr none = false ∧
    (translateTextFn uNameStr dUser []).1 = uNameStr := by decide

/-! ### C6: parse failure of the code-literal translator -/

/-- C6: whenever the external ECMAScript parse fails (`none`), the
    code-literal translator returns the input buffer byte-identically and
    leaves the cache untouched; being a total function of the parse outcome it
    cannot throw, and no partial rewrite is applied. -/
theorem C6_parse_failure_returns_input :
    ∀ (content : Str) (c d : Table), translateStrings content none c d = (content, c) :=
  fun _ _ _ => rfl

/-! ### C9: the JSON string branch has no safety guard -/

/-- C9 (amended): the JSON translator applies dictionary resolution to every
    string leaf unconditionally — no SafetyClassifier call occurs anywhere in
    the JSON path — so a classifier-rejected string (here `hello()`, rejected
    by the code-pattern filter) is still translated when the dictionary has an
    entry for it. -/
theorem C9_json_string_branch_unguarded :
    (∀ (s : Str) (d c : Table),
        translateObject (.str s) d c = (.str (jsonResolveStr s d c).1, (jsonResolveStr s d c).2))
    ∧ translateObject (.str codeStr) dCode [] = (.str xStr, cSet [] codeStr xStr)
    ∧ isSafeToTranslate codeStr (some dCode) = false :=
  ⟨fun _ _ _ => rfl, by decide, by decide⟩

/-- C9 counterexample: the classifier rejects `hello()` yet the JSON
    translator does not return it unchanged — it translates it via its
    dictionary entry, contradicting the claim. -/
theorem C9_counterexample :
    isSafeToTranslate codeStr (some dCode) = false ∧
    (translateObject (.str codeStr) dCode []).1 ≠ .str codeStr := by decide

/-! ### C10: cache lookup precedes the safety check in the HTML path -/

/-- C10 (amended): for every non-empty, non-whitespace-only string present in
    the shared cache, the HTML `translateText` returns the cached value
    (cache consulted before the safety check, which is never reached); in
    particular the identifier-shaped `userName` — classified unsafe by the
    HTML path's dictionary-less classifier — is still substituted from the
    cache, both directly and inside an HTML text node.  Only the initial
    empty/whitespace-only guard precedes the cache lookup. -/
theorem C10_cache_resolved_before_safety :
    (∀ (t : Str) (d c : Table), t ≠ [] → isWhitespaceOnly t = false →
        cHas c t = true → translateTextFn t d c = (cGet c t, c))
    ∧ isSafeToTranslate uNameStr none = false
    ∧ translateTextFn uNameStr [] c10Cache = (xStr, c10Cache)
    ∧ (translateHtml c10HtmlIn c10Cache []).1 = c10HtmlOut := by
  refine ⟨?_, by decide, by decide, by decide⟩
  intro t d c h1 h2 h3
  unfold translateTextFn
  rw [if_neg (by simp [h1, h2])]
  simp only [h3, if_true]

/-- C10 witness: a cached non-whitespace string (`Hi`) is returned from the
    cache by `translateText`. -/
theorem C10_witness : translateTextFn hiStr [] [(hiStr, zStr)] = (cGet [(hiStr, zStr)] hiStr, [(hiStr, zStr)]) :=
  C10_cache_resolved_before_safety.1 hiStr [] [(hiStr, zStr)] (by decide) (by decide) (by decide)

/-- C10 counterexample: the whitespace-only string `" "` is present in the
    cache, yet `translateText` returns it unchanged instead of the cached
    value, because the whitespace guard runs before the cache lookup — the
    claim as stated (every cached key) is false. -/
theorem C10_counterexample :
    cHas [(spStr, zStr)] spStr = true ∧
    (translateTextFn spStr [] [(spStr, zStr)]).1 ≠ cGet [(spStr, zStr)] spStr := by decide

/-! ### C8: script/style bodies are not reliably protected -/

/-- C8: evaluating the HTML translator at `<b>Hi</b><script>Hi</script>` with
    dictionary `Hi → X`: the script body is rewritten to `X` because the
    script/style check locates the matched span via `indexOf` of the match
    TEXT, which finds the earlier identical span outside the script element —
    the code contradicts its own skip-inside-script intent. -/
theorem C8_script_body_rewritten :
    (translateHtml c8In [] c8Dict).1 = c8Out ∧
    seqHas ('<' :: 's' :: 'c' :: 'r' :: 'i' :: 'p' :: 't' :: '>' :: 'X' :: []) c8Out = true ∧
    seqHas ('<' :: 's' :: 'c' :: 'r' :: 'i' :: 'p' :: 't' :: '>' :: 'H' :: 'i' :: []) c8In = true := by
  decide

/-! ### C7: whitespace handling of the HTML text-node pass -/

theorem dropWhile_head_not {p : Char → Bool} :
    ∀ (l : Str) (c : Char) (rest : Str), l.dropWhile p = c :: rest → p c = false := by
  intro l
  induction l with
  | nil => intro c rest h; simp [List.dropWhile] at h
  | cons x xs ih =>
    intro c rest h
    by_cases hx : p x
    · rw [List.dropWhile_cons_of_pos hx] at h; exact ih c rest h
    · rw [List.dropWhile_cons_of_neg hx] at h
      cases h; simpa using hx

theorem takeWhile_all {p : Char → Bool} : ∀ (l : Str), (l.takeWhile p).all p = true := by
  intro l
  induction l with
  | nil => simp [List.takeWhile]
  | cons x xs ih =>
    by_cases hx : p x
    · rw [List.takeWhile_cons_of_pos hx]; simp [hx, ih]
    · rw [List.takeWhile_cons_of_neg hx]; simp

theorem takeWhile_append_all {p : Char → Bool} :
    ∀ (u v : Str), u.all p = true → (u ++ v).takeWhile p = u ++ v.takeWhile p := by
  intro u v
  induction u with
  | nil => simp
  | cons x xs ih =>
    intro h
    simp only [List.all_cons, Bool.and_eq_true] at h
    simp only [List.cons_append, List.takeWhile_cons_of_pos h.1, ih h.2]

theorem dropWhile_append_keep {p : Char → Bool} :
    ∀ (u v : Str), v.dropWhile p = v → (u ++ v).dropWhile p = u.dropWhile p ++ v := by
  intro u v hv
  induction u with
  | nil => simpa using hv
  | cons x xs ih =>
    by_cases hx : p x
    · simp only [List.cons_append, List.dropWhile_cons_of_pos hx, ih]
    · simp only [List.cons_append, List.dropWhile_cons_of_neg hx]

theorem dropWhile_nil_all {p : Char → Bool} :
    ∀ (l : Str), l.dropWhile p = [] → l.all p = true := by
  intro l
  induction l with
  | nil => simp
  | cons x xs ih =>
    intro h
    by_cases hx : p x
    · rw [List.dropWhile_cons_of_pos hx] at h; simp [hx, ih h]
    · rw [List.dropWhile_cons_of_neg hx] at h; cases h

theorem takeWhile_self_all {p : Char → Bool} :
    ∀ (l : Str), l.all p = true → l.takeWhile p = l := by
  intro l
  induction l with
  | nil => simp
  | cons x xs ih =>
    intro h
    simp only [List.all_cons, Bool.and_eq_true] at h
    rw [List.takeWhile_cons_of_pos h.1, ih h.2]

theorem all_ws_of_trim_nil (t : Str) (h : trimStr t = []) : t.all isWs = true := by
  unfold trimStr at h
  rw [List.reverse_eq_nil_iff] at h
  have h2 := dropWhile_nil_all _ h
  rw [List.all_reverse] at h2
  have h3 : t = t.takeWhile isWs ++ t.dropWhile isWs :=
    (List.takeWhile_append_dropWhile isWs t).symm
  rw [h3, List.all_append]
  simp [takeWhile_all, h2]

theorem trim_recon (t : Str) (h : trimStr t ≠ []) :
    wsTake t ++ trimStr t ++ wsEnd t = t := by
  have hsplit : t.takeWhile isWs ++ t.dropWhile isWs = t :=
    List.takeWhile_append_dropWhile isWs t
  set r := t.dropWhile isWs with hr
  set b := r.reverse.takeWhile isWs with hb
  set m := r.reverse.dropWhile isWs with hm
  have hbm : b ++ m = r.reverse := List.takeWhile_append_dropWhile isWs r.reverse
  have htrim : trimStr t = m.reverse := rfl
  have hmne : m ≠ [] := by
    intro hnil
    rw [htrim, hnil] at h
    exact h rfl
  obtain ⟨mh, mt, hmcons⟩ : ∃ mh mt, m = mh :: mt := by
    cases hmm : m with
    | nil => exact absurd hmm hmne
    | cons a b2 => exact ⟨a, b2, rfl⟩
  have hmhead : isWs mh = false := dropWhile_head_not r.reverse mh mt (hm ▸ hmcons ▸ rfl)
  have hrev : t.reverse = b ++ (m ++ (t.takeWhile isWs).reverse) := by
    calc t.reverse = (t.takeWhile isWs ++ r).reverse := by rw [hsplit]
    _ = r.reverse ++ (t.takeWhile isWs).reverse := by rw [List.reverse_append]
    _ = (b ++ m) ++ (t.takeWhile isWs).reverse := by rw [hbm]
    _ = b ++ (m ++ (t.takeWhile isWs).reverse) := by rw [List.append_assoc]
  have hnotmh : ¬ (isWs mh = true) := by simp [hmhead]
  have hwe : wsEnd t = b.reverse := by
    unfold wsEnd
    rw [hrev, takeWhile_append_all _ _ (hb ▸ takeWhile_all r.reverse)]
    rw [hmcons, List.cons_append, List.takeWhile_cons_of_neg hnotmh]
    simp
  have hrval : r = m.reverse ++ b.reverse := by
    calc r = r.reverse.reverse := by simp
    _ = (b ++ m).reverse := by rw [hbm]
    _ = m.reverse ++ b.reverse := by rw [List.reverse_append]
  show t.takeWhile isWs ++ trimStr t ++ wsEnd t = t
  rw [htrim, hwe, List.append_assoc, ← hrval, hsplit]

theorem wsEnd_self_all (t : Str) (h : t.all isWs = true) : wsEnd t = t := by
  unfold wsEnd
  rw [takeWhile_self_all _ (by simpa [List.all_reverse] using h)]
  simp

/-- C7 (amended): the HTML text-node emitter re-emits the original leading and
    trailing whitespace runs exactly around the translated core — for spans
    with a non-empty trimmed core whose translation resolves to itself the
    emission is byte-for-byte the original span — and the concrete scenario
    `>  Hello  <` with `Hello → X` yields exactly `>  X  <` through the full
    translator.  Whitespace-only spans, however, are re-emitted with BOTH
    whitespace runs, i.e. doubled, not byte-identically (each run equals the
    whole span). -/
theorem C7_whitespace_roundtrip :
    (∀ (t : Str) (d c : Table), trimStr t ≠ [] →
        (translateTextFn (trimStr t) d c).1 = trimStr t →
        (htmlSpanEmit t d c).1 = '>' :: (t ++ ['<'])) ∧
    (∀ (t : Str) (d c : Table), trimStr t = [] →
        (htmlSpanEmit t d c).1 = '>' :: (t ++ t ++ ['<'])) ∧
    (translateHtml c7PosIn [] dHello).1 = c7PosOut := by
  refine ⟨?_, ?_, by decide⟩
  · intro t d c h hfix
    unfold htmlSpanEmit
    simp only [hfix]
    have hassoc : wsTake t ++ trimStr t ++ wsEnd t ++ ['<'] =
        (wsTake t ++ trimStr t ++ wsEnd t) ++ ['<'] := by
      simp [List.append_assoc]
    rw [hassoc, trim_recon t h]
  · intro t d c h
    have hall := all_ws_of_trim_nil t h
    unfold htmlSpanEmit
    rw [h]
    have h1 : translateTextFn [] d c = ([], c) := by simp [translateTextFn]
    rw [h1]
    show '>' :: (wsTake t ++ [] ++ wsEnd t ++ ['<']) = _
    rw [show wsTake t = t from takeWhile_self_all t hall, wsEnd_self_all t hall]
    simp

/-- C7 witness: the span `"  Hello  "` with an empty dictionary resolves to
    itself, and the emitter re-emits it byte-for-byte. -/
theorem C7_witness : (htmlSpanEmit wsHello [] []).1 = '>' :: (wsHello ++ ['<']) :=
  C7_whitespace_roundtrip.1 wsHello [] [] (by decide) (by decide)

/-- C7 counterexample: the whitespace-only text node in `<a> </a>` is NOT
    emitted byte-for-byte — the translator doubles it to `<a>  </a>` — so the
    claim's "including whitespace-only spans" clause is false. -/
theorem C7_counterexample :
    (translateHtml c7In [] []).1 = c7Out ∧ c7Out ≠ c7In := by decide

/-! ### C4: root `<html>` attribute injection -/

theorem all_of_append_right {q : Char → Bool} (u r : Str)
    (h : (u ++ r).all q = true) : r.all q = true := by
  simp only [List.all_append, Bool.and_eq_true] at h
  exact h.2

theorem all_dropWhile {p q : Char → Bool} :
    ∀ (l : Str), l.all q = true → (l.dropWhile p).all q = true := by
  intro l
  induction l with
  | nil => simp
  | cons x xs ih =>
    intro h
    simp only [List.all_cons, Bool.and_eq_true] at h
    by_cases hx : p x
    · rw [List.dropWhile_cons_of_pos hx]; exact ih h.2
    · rw [List.dropWhile_cons_of_neg hx]
      simp only [List.all_cons, Bool.and_eq_true]
      exact ⟨h.1, h.2⟩

theorem all_trim {q : Char → Bool} (s : Str) (h : s.all q = true) :
    (trimStr s).all q = true := by
  unfold trimStr
  rw [List.all_reverse]
  apply all_dropWhile
  rw [List.all_reverse]
  exact all_dropWhile s h

theorem matchCI_split :
    ∀ (p s r : Str), matchCI p s = some r → ∃ u, s = u ++ r := by
  intro p
  induction p with
  | nil =>
    intro s r h
    unfold matchCI at h
    cases h
    exact ⟨[], rfl⟩
  | cons a ps ih =>
    intro s r h
    cases s with
    | nil => cases h
    | cons c cs =>
      unfold matchCI at h
      by_cases hac : a.toLower = c.toLower
      · rw [if_pos hac] at h
        obtain ⟨u, hu⟩ := ih cs r h
        exact ⟨c :: u, by rw [hu]; rfl⟩
      · rw [if_neg hac] at h; cases h

theorem attrAfterEq_none_noQuotes (r3 : Str) (hq : noQuotes r3 = true) :
    attrAfterEq r3 = none := by
  unfold attrAfterEq
  have hw : noQuotes (r3.dropWhile isWs) = true := all_dropWhile r3 hq
  cases hdw : r3.dropWhile isWs with
  | nil => rfl
  | cons q r5 =>
    rw [hdw] at hw
    simp only [noQuotes, List.all_cons, Bool.and_eq_true] at hw
    have hqf : isQuoteCh q = false := by simpa using hw.1
    simp [hqf]

theorem attrAfterName_none_noQuotes (r1 : Str) (hq : noQuotes r1 = true) :
    attrAfterName r1 = none := by
  unfold attrAfterName
  have hw : noQuotes (r1.dropWhile isWs) = true := all_dropWhile r1 hq
  cases hdw : r1.dropWhile isWs with
  | nil => rfl
  | cons c w =>
    rw [hdw] at hw
    simp only [noQuotes, List.all_cons, Bool.and_eq_true] at hw
    split
    · rename_i r3 heq
      -- heq : c :: w = '=' :: r3
      injection heq with h1 h2
      subst h2
      exact attrAfterEq_none_noQuotes w (by simpa [noQuotes] using hw.2)
    · rfl

theorem tryAttrAt_none_noQuotes (nm s : Str) (hq : noQuotes s = true) :
    tryAttrAt nm s = none := by
  unfold tryAttrAt
  cases hm : matchCI nm s with
  | none => rfl
  | some r1 =>
    obtain ⟨u, hu⟩ := matchCI_split nm s r1 hm
    exact attrAfterName_none_noQuotes r1 (all_of_append_right u r1 (hu ▸ hq))

theorem attrFind_none_noQuotes (nm : Str) :
    ∀ (s : Str), noQuotes s = true → attrFind nm s = none := by
  intro s
  induction s with
  | nil => intro _; rfl
  | cons ch rest ih =>
    intro hq
    have hrest : noQuotes rest = true := by
      simp only [noQuotes, List.all_cons, Bool.and_eq_true] at hq
      simpa [noQuotes] using hq.2
    unfold attrFind
    rw [tryAttrAt_none_noQuotes nm (ch :: rest) hq, ih hrest]

theorem attrAfterEq_dirAppend : ∀ (u : Str), noQuotes u = true →
    attrAfterEq (u ++ dirLit) = none := by
  intro u hq
  unfold attrAfterEq
  rw [dropWhile_append_keep u dirLit (by decide)]
  have hw : noQuotes (u.dropWhile isWs) = true := all_dropWhile u hq
  cases hdw : u.dropWhile isWs with
  | nil => rfl
  | cons q w =>
    rw [hdw] at hw
    simp only [noQuotes, List.all_cons, Bool.and_eq_true] at hw
    have hqf : isQuoteCh q = false := by simpa using hw.1
    simp only [List.cons_append]
    simp [hqf]

theorem attrAfterName_dirAppend : ∀ (u : Str), noQuotes u = true →
    attrAfterName (u ++ dirLit) = none := by
  intro u hq
  unfold attrAfterName
  rw [dropWhile_append_keep u dirLit (by decide)]
  have hw : noQuotes (u.dropWhile isWs) = true := all_dropWhile u hq
  cases hdw : u.dropWhile isWs with
  | nil => rfl
  | cons c w =>
    rw [hdw] at hw
    simp only [noQuotes, List.all_cons, Bool.and_eq_true] at hw
    simp only [List.cons_append]
    split
    · rename_i r3 heq
      injection heq with h1 h2
      subst h2
      exact attrAfterEq_dirAppend w (by simpa [noQuotes] using hw.2)
    · rfl

theorem matchCI_noD_append :
    ∀ (p : Str), (∀ ch ∈ p, ch.toLower ≠ 'd') →
      ∀ (u r : Str), matchCI p (u ++ dirLit) = some r →
        ∃ u1 u2, u = u1 ++ u2 ∧ r = u2 ++ dirLit := by
  intro p
  induction p with
  | nil =>
    intro _ u r h
    unfold matchCI at h
    cases h
    exact ⟨[], u, rfl, rfl⟩
  | cons a ps ih =>
    intro hp u r h
    cases u with
    | nil =>
      simp only [List.nil_append] at h
      rw [show dirLit = 'd' :: 'i' :: 'r' :: '=' :: '"' :: 'r' :: 't' :: 'l' :: '"' :: [] from rfl] at h
      unfold matchCI at h
      have hnd : a.toLower ≠ 'd' := hp a (by simp)
      have hd : ('d'.toLower) = 'd' := by decide
      rw [if_neg (by rw [hd]; simpa using hnd)] at h
      cases h
    | cons c u' =>
      simp only [List.cons_append] at h
      unfold matchCI at h
      by_cases hac : a.toLower = c.toLower
      · rw [if_pos hac] at h
        obtain ⟨u1, u2, hu, hr⟩ := ih (fun ch hch => hp ch (by simp [hch])) u' r h
        exact ⟨c :: u1, u2, by rw [hu]; rfl, hr⟩
      · rw [if_neg hac] at h; cases h

theorem tryAttrAt_lang_dirAppend (u : Str) (hq : noQuotes u = true) :
    tryAttrAt ('l' :: 'a' :: 'n' :: 'g' :: []) (u ++ dirLit) = none := by
  unfold tryAttrAt
  cases hm : matchCI ('l' :: 'a' :: 'n' :: 'g' :: []) (u ++ dirLit) with
  | none => rfl
  | some r1 =>
    obtain ⟨u1, u2, hu, hr⟩ := matchCI_noD_append _ (by decide) u r1 hm
    rw [hr]
    apply attrAfterName_dirAppend
    exact all_of_append_right u1 u2 (hu ▸ hq)

theorem attrFind_lang_dirAppend :
    ∀ (u : Str), noQuotes u = true →
      attrFind ('l' :: 'a' :: 'n' :: 'g' :: []) (u ++ dirLit) = none := by
  intro u
  induction u with
  | nil =>
    intro _
    simp only [List.nil_append]
    decide
  | cons ch rest ih =>
    intro hq
    have hrest : noQuotes rest = true := by
      simp only [noQuotes, List.all_cons, Bool.and_eq_true] at hq
      simpa [noQuotes] using hq.2
    simp only [List.cons_append]
    unfold attrFind
    rw [show ch :: (rest ++ dirLit) = (ch :: rest) ++ dirLit from rfl]
    rw [tryAttrAt_lang_dirAppend (ch :: rest) hq, ih hrest]

theorem begMatch_self_append : ∀ (n b : Str), begMatch n (n ++ b) = true := by
  intro n
  induction n with
  | nil => intro b; rfl
  | cons c cs ih =>
    intro b
    simp only [List.cons_append]
    unfold begMatch
    simp [ih b]

theorem seqHas_append_mid : ∀ (a n b : Str), seqHas n (a ++ (n ++ b)) = true := by
  intro a n b
  induction a with
  | nil =>
    simp only [List.nil_append]
    cases hn : n ++ b with
    | nil => unfold seqHas; rw [← hn]; simp [begMatch_self_append]
    | cons c rest => unfold seqHas; rw [← hn]; simp [begMatch_self_append]
  | cons c a' ih =>
    simp only [List.cons_append]
    unfold seqHas
    simp [ih]

theorem trimStr_append_keep (X L : Str) (lc : Char) (lrest : Str)
    (hL : L.dropWhile isWs = L) (hcons : L.reverse = lc :: lrest) (hlc : isWs lc = false) :
    trimStr (X ++ L) = X.dropWhile isWs ++ L := by
  unfold trimStr
  rw [dropWhile_append_keep X L hL, List.reverse_append, hcons, List.cons_append]
  rw [List.dropWhile_cons_of_neg (by simp [hlc])]
  rw [← List.cons_append, ← hcons, ← List.reverse_append]
  simp

theorem dirStep_of_noQuotes (attrs : Str) (hq : noQuotes attrs = true) :
    dirStep attrs =
      (if trimStr attrs = [] then [] else trimStr attrs ++ [' ']) ++ dirLit := by
  unfold dirStep
  rw [attrFind_none_noQuotes ('d' :: 'i' :: 'r' :: []) attrs hq]

theorem langStep_dirAppend (X : Str) (hq : noQuotes X = true) :
    langStep (X ++ dirLit) =
      (if trimStr (X ++ dirLit) = [] then [] else trimStr (X ++ dirLit) ++ [' ']) ++ langLit := by
  unfold langStep
  rw [attrFind_lang_dirAppend X hq]

theorem setAttrRtl_contains (attrs : Str) (hq : noQuotes attrs = true) :
    seqHas dirLit (setAttrRtl attrs) = true ∧ seqHas langLit (setAttrRtl attrs) = true := by
  unfold setAttrRtl
  set X : Str := if trimStr attrs = [] then ([] : Str) else trimStr attrs ++ [' '] with hX
  have hXq : noQuotes X = true := by
    rw [hX]
    split
    · rfl
    · simp only [noQuotes, List.all_append]
      have h1 := all_trim (q := fun c => ¬ isQuoteCh c) attrs hq
      simp only [noQuotes] at h1
      simp only [h1, Bool.true_and]
      decide
  rw [dirStep_of_noQuotes attrs hq, ← hX]
  rw [langStep_dirAppend X hXq]
  rw [trimStr_append_keep X dirLit '"'
    ('l' :: 't' :: 'r' :: '"' :: '=' :: 'r' :: 'i' :: 'd' :: []) (by decide) (by decide) (by decide)]
  rw [if_neg (by simp [dirLit])]
  set Y : Str := X.dropWhile isWs with hY
  have hassoc : (Y ++ dirLit ++ [' ']) ++ langLit = Y ++ (dirLit ++ (' ' :: langLit)) := by
    simp [List.append_assoc]
  rw [hassoc]
  rw [trimStr_append_keep Y (dirLit ++ (' ' :: langLit)) '"'
    ('r' :: 'a' :: '"' :: '=' :: 'g' :: 'n' :: 'a' :: 'l' :: ' ' :: '"' :: 'l' :: 't' :: 'r' :: '"' :: '=' :: 'r' :: 'i' :: 'd' :: []) (by decide) (by decide) (by decide)]
  set Z : Str := Y.dropWhile isWs with hZ
  constructor
  · have h := seqHas_append_mid (('<' :: 'h' :: 't' :: 'm' :: 'l' :: ' ' :: []) ++ Z) dirLit
      (' ' :: langLit ++ ['>'])
    have hsh : (('<' :: 'h' :: 't' :: 'm' :: 'l' :: ' ' :: []) ++ Z) ++ (dirLit ++ (' ' :: langLit ++ ['>'])) =
        ('<' :: 'h' :: 't' :: 'm' :: 'l' :: ' ' :: []) ++ (Z ++ (dirLit ++ ' ' :: langLit)) ++ ['>'] := by
      simp [List.append_assoc]
    rw [hsh] at h
    exact h
  · have h := seqHas_append_mid (('<' :: 'h' :: 't' :: 'm' :: 'l' :: ' ' :: []) ++ (Z ++ (dirLit ++ [' ']))) langLit (['>'])
    have hsh : (('<' :: 'h' :: 't' :: 'm' :: 'l' :: ' ' :: []) ++ (Z ++ (dirLit ++ [' ']))) ++ (langLit ++ ['>']) =
        ('<' :: 'h' :: 't' :: 'm' :: 'l' :: ' ' :: []) ++ (Z ++ (dirLit ++ ' ' :: langLit)) ++ ['>'] := by
      simp [List.append_assoc]
    rw [hsh] at h
    exact h

/-- C4 (amended): for every HTML input whose first `<html\s*([^>]*)>` match
    has an attribute section free of quote characters, the rewritten root tag
    carries both `dir="rtl"` and `lang="ar"`; in particular the concrete
    scenario holds: `<html><body><h1>Welcome</h1></body></html>` with
    `Welcome → مرحبا` yields
    `<html dir="rtl" lang="ar"><body><h1>مرحبا</h1></body></html>`.
    (With an unbalanced quote inside the attribute section the subsequent
    `lang` rewrite can destroy the injected `dir` attribute — see the
    counterexample — so the claim does not hold for every input.) -/
theorem C4_html_rtl_injection :
    (∀ (attrs : Str), noQuotes attrs = true →
        seqHas dirLit (setAttrRtl attrs) = true ∧ seqHas langLit (setAttrRtl attrs) = true) ∧
    (translateHtml c4ScenIn [] dWelcomeAr).1 = c4ScenOut :=
  ⟨setAttrRtl_contains, by decide⟩

/-- C4 witness: a quote-free attribute section (`class=x`) receives both
    injected attributes. -/
theorem C4_witness :
    seqHas dirLit (setAttrRtl clsAttr) = true ∧ seqHas langLit (setAttrRtl clsAttr) = true :=
  C4_html_rtl_injection.1 clsAttr (by decide)

/-- C4 counterexample: the input `<html lang='>` contains an opening
    `<html ...>` tag, yet the translator's output `<html lang="ar"rtl">`
    carries no `dir="rtl"` at all — the unbalanced quote makes the `lang`
    rewrite consume the injected `dir` attribute. -/
theorem C4_counterexample :
    seqHas ('<' :: 'h' :: 't' :: 'm' :: 'l' :: []) c4CexIn = true ∧
    (translateHtml c4CexIn [] []).1 = c4CexOut ∧
    seqHas dirLit ((translateHtml c4CexIn [] []).1) = false := by decide

/-! ### C5: delimiter preservation and escaping of rewritten literals -/

theorem pairCheckQ_escChar (q : Char) (hq : q ≠ '\\') :
    ∀ (s : Str) (prev : Char), pairCheckQ q prev (escChar q s) = true := by
  intro s
  induction s with
  | nil => intro prev; rfl
  | cons c s' ih =>
    intro prev
    unfold escChar
    by_cases hc : c = q
    · rw [if_pos hc]
      unfold pairCheckQ
      simp only [Bool.and_eq_true]
      refine ⟨by simp [Ne.symm hq], ?_⟩
      unfold pairCheckQ
      simp only [Bool.and_eq_true]
      exact ⟨by simp, ih c⟩
    · rw [if_neg hc]
      unfold pairCheckQ
      simp only [Bool.and_eq_true]
      exact ⟨by simp [hc], ih c⟩

theorem noBareQ_escChar (q : Char) (hq : q ≠ '\\') :
    ∀ (s : Str), noBareQ q (escChar q s) = true := by
  intro s
  cases s with
  | nil => rfl
  | cons c s' =>
    unfold escChar
    by_cases hc : c = q
    · rw [if_pos hc]
      unfold noBareQ
      simp only [Bool.and_eq_true]
      refine ⟨by simp [Ne.symm hq], ?_⟩
      unfold pairCheckQ
      simp only [Bool.and_eq_true]
      exact ⟨by simp, pairCheckQ_escChar q hq s' c⟩
    · rw [if_neg hc]
      unfold noBareQ
      simp only [Bool.and_eq_true]
      exact ⟨by simp [hc], pairCheckQ_escChar q hq s' c⟩

theorem pairCheckQ_escDollar (q : Char) (hq1 : q ≠ '$') (hq2 : q ≠ '\x7b') (hq3 : q ≠ '\\') :
    ∀ (l : Str) (prev : Char), pairCheckQ q prev l = true → pairCheckQ q prev (escDollar l) = true
  | [], _, h => h
  | [c], _, h => h
  | c1 :: c2 :: rest, prev, h => by
    unfold escDollar
    by_cases hc : c1 = '$' ∧ c2 = '\x7b'
    · rw [if_pos hc]
      obtain ⟨h1, h2⟩ := hc
      subst h1 h2
      simp only [pairCheckQ, Bool.and_eq_true] at h ⊢
      refine ⟨by simp [Ne.symm hq3], by simp, by simp [Ne.symm hq2], ?_⟩
      exact pairCheckQ_escDollar q hq1 hq2 hq3 rest '\x7b' h.2.2
    · rw [if_neg hc]
      simp only [pairCheckQ, Bool.and_eq_true] at h ⊢
      refine ⟨h.1, ?_⟩
      have hin : pairCheckQ q c1 (c2 :: rest) = true := by
        simp only [pairCheckQ, Bool.and_eq_true]
        exact h.2
      exact pairCheckQ_escDollar q hq1 hq2 hq3 (c2 :: rest) c1 hin

theorem noBareQ_escDollar (q : Char) (hq1 : q ≠ '$') (hq2 : q ≠ '\x7b') (hq3 : q ≠ '\\') :
    ∀ (l : Str), noBareQ q l = true → noBareQ q (escDollar l) = true := by
  intro l h
  cases l with
  | nil => exact h
  | cons c rest =>
    cases rest with
    | nil => exact h
    | cons c2 rest2 =>
      unfold escDollar
      by_cases hc : c = '$' ∧ c2 = '\x7b'
      · rw [if_pos hc]
        obtain ⟨h1, h2⟩ := hc
        subst h1 h2
        simp only [noBareQ, pairCheckQ, Bool.and_eq_true] at h ⊢
        refine ⟨by simp [Ne.symm hq3], by simp, by simp [Ne.symm hq2], ?_⟩
        exact pairCheckQ_escDollar q hq1 hq2 hq3 rest2 '\x7b' h.2.2
      · rw [if_neg hc]
        simp only [noBareQ, Bool.and_eq_true] at h ⊢
        refine ⟨h.1, ?_⟩
        exact pairCheckQ_escDollar q hq1 hq2 hq3 (c2 :: rest2) c h.2

theorem escDollar_head_cases :
    ∀ (c : Char) (r : Str),
      (escDollar (c :: r)).head? = some c ∨ (escDollar (c :: r)).head? = some '\\' := by
  intro c r
  cases r with
  | nil => left; rfl
  | cons c2 r2 =>
    unfold escDollar
    by_cases hc : c = '$' ∧ c2 = '\x7b'
    · rw [if_pos hc]; right; rfl
    · rw [if_neg hc]; left; rfl

theorem begMatch_brace_head (l : Str) (e : Char) (es : Str)
    (hl : l = e :: es) (he : e ≠ '\x7b') : begMatch ('\x7b' :: []) l = false := by
  subst hl
  simp only [begMatch, Bool.and_eq_true]
  simp [Ne.symm he]

theorem dbCheck_escDollar :
    ∀ (t : Str) (prev : Char), dbCheck prev (escDollar t) = true
  | [], _ => rfl
  | [c], prev => by
    simp only [escDollar, dbCheck, Bool.and_eq_true]
    refine ⟨by simp [begMatch], by simp [dbCheck]⟩
  | c1 :: c2 :: rest, prev => by
    unfold escDollar
    by_cases hc : c1 = '$' ∧ c2 = '\x7b'
    · rw [if_pos hc]
      obtain ⟨h1, h2⟩ := hc
      subst h1 h2
      simp only [dbCheck, Bool.and_eq_true]
      refine ⟨by simp [begMatch], by simp, by simp [begMatch], ?_⟩
      exact dbCheck_escDollar rest '\x7b'
    · rw [if_neg hc]
      simp only [dbCheck, Bool.and_eq_true]
      constructor
      · by_cases h1 : c1 = '$'
        · subst h1
          have hc2 : c2 ≠ '\x7b' := fun h2 => hc ⟨rfl, h2⟩
          rcases escDollar_head_cases c2 rest with hh | hh
          · cases hes : escDollar (c2 :: rest) with
            | nil => simp [begMatch]
            | cons e es =>
              rw [hes] at hh
              simp only [List.head?] at hh
              injection hh with he
              rw [begMatch_brace_head _ e es rfl (he ▸ hc2)]
              simp
          · cases hes : escDollar (c2 :: rest) with
            | nil => simp [begMatch]
            | cons e es =>
              rw [hes] at hh
              simp only [List.head?] at hh
              injection hh with he
              rw [begMatch_brace_head _ e es rfl (by rw [he]; decide)]
              simp
        · simp [h1]
      · exact dbCheck_escDollar (c2 :: rest) c1

theorem noBareDB_escDollar : ∀ (t : Str), noBareDB (escDollar t) = true := by
  intro t
  cases t with
  | nil => rfl
  | cons c rest =>
    cases rest with
    | nil =>
      simp only [escDollar, noBareDB, Bool.and_eq_true]
      refine ⟨by simp [begMatch], by simp [dbCheck]⟩
    | cons c2 rest2 =>
      unfold escDollar
      by_cases hc : c = '$' ∧ c2 = '\x7b'
      · rw [if_pos hc]
        obtain ⟨h1, h2⟩ := hc
        subst h1 h2
        simp only [noBareDB, dbCheck, Bool.and_eq_true]
        refine ⟨by simp [begMatch], by simp, by simp [begMatch], ?_⟩
        exact dbCheck_escDollar rest2 '\x7b'
      · rw [if_neg hc]
        simp only [noBareDB, Bool.and_eq_true]
        constructor
        · by_cases h1 : c = '$'
          · subst h1
            have hc2 : c2 ≠ '\x7b' := fun h2 => hc ⟨rfl, h2⟩
            rcases escDollar_head_cases c2 rest2 with hh | hh
            · cases hes : escDollar (c2 :: rest2) with
              | nil => simp [begMatch]
              | cons e es =>
                rw [hes] at hh
                simp only [List.head?] at hh
                injection hh with he
                rw [begMatch_brace_head _ e es rfl (he ▸ hc2)]
                simp
            · cases hes : escDollar (c2 :: rest2) with
              | nil => simp [begMatch]
              | cons e es =>
                rw [hes] at hh
                simp only [List.head?] at hh
                injection hh with he
                rw [begMatch_brace_head _ e es rfl (by rw [he]; decide)]
                simp
          · simp [h1]
        · exact dbCheck_escDollar (c2 :: rest2) c

theorem quoteOf_cases (o : Str) (q : Char) (h : quoteOf o = some q) :
    q = '"' ∨ q = '\x27' ∨ q = '\x60' := by
  unfold quoteOf at h
  split at h
  · cases h; left; rfl
  · split at h
    · cases h; right; left; rfl
    · split at h
      · cases h; right; right; rfl
      · cases h

/-- C5: whenever the original literal text at a replacement's byte range
    starts with one of the three quote characters, the rewritten literal is
    re-emitted with exactly that delimiter class on both ends, and in the
    escaped replacement text every occurrence of that delimiter is immediately
    preceded by a backslash (and, for backtick literals, every occurrence of
    the two-character sequence `$\x7b` is immediately preceded by a backslash
    as well). -/
theorem C5_quote_class_and_escaping :
    ∀ (content res : Str) (r : Repl) (q : Char),
      quoteOf ((content.drop r.start).take (r.stop - r.start)) = some q →
      applyReplacement content res r =
          res.take r.start ++
            (q :: (escFor (some q) r.replacement ++ (q :: res.drop r.stop))) ∧
        noBareQ q (escFor (some q) r.replacement) = true ∧
        (q = '\x60' → noBareDB (escFor (some q) r.replacement) = true) := by
  intro content res r q h
  refine ⟨?_, ?_, ?_⟩
  · simp only [applyReplacement]
    rw [h]
    simp [List.append_assoc]
  · rcases quoteOf_cases _ q h with hq | hq | hq <;> subst hq
    · exact noBareQ_escChar '"' (by decide) r.replacement
    · exact noBareQ_escChar '\x27' (by decide) r.replacement
    · show noBareQ '\x60' (escDollar (escChar '\x60' r.replacement)) = true
      exact noBareQ_escDollar '\x60' (by decide) (by decide) (by decide) _
        (noBareQ_escChar '\x60' (by decide) r.replacement)
  · intro hq
    subst hq
    show noBareDB (escDollar (escChar '\x60' r.replacement)) = true
    exact noBareDB_escDollar _

/-- C5 witness: rewriting the literal `'Hi'` with replacement text `don't`
    keeps the single-quote delimiter and escapes the inner apostrophe. -/
theorem C5_witness :
    applyReplacement c5Content c5Content c5Repl =
        c5Content.take c5Repl.start ++
          ('\x27' :: (escFor (some '\x27') c5Repl.replacement ++
            ('\x27' :: c5Content.drop c5Repl.stop))) ∧
      noBareQ '\x27' (escFor (some '\x27') c5Repl.replacement) = true ∧
      ('\x27' = '\x60' → noBareDB (escFor (some '\x27') c5Repl.replacement) = true) :=
  C5_quote_class_and_escaping c5Content c5Content c5Repl '\x27' (by decide)
